import Mathlib

/-!
Verification of the composer notebooks repository against its specification.

Part 1 models the Adaptive Micro-Batch Controller described by the spec
(the controller itself lives in the external training framework; the
notebooks only invoke it through the trainer option selecting automatic
gradient accumulation, so the controller is modelled from the spec).

Part 2 embeds the FaceSynthetics streaming-dataset notebook code:
the label remapping in the dataset item accessor, the train/test index
split performed by the dataset writer, and the big-endian signed 64-bit
sample-index serialization.
-/

/-- Modelled from the spec: outcome of one invocation of the externally
supplied step function on a micro-batch. -/
inductive StepOutcome where
  | ok : StepOutcome
  | resourceExhausted : StepOutcome
  | otherError : String → StepOutcome
deriving DecidableEq

/-- Modelled from the spec: reason carried by a fatal result. -/
inductive FailReason where
  | splitExhausted : FailReason
  | nonRetryable : String → FailReason
deriving DecidableEq

/-- Modelled from the spec: result of one run of the controller on a
logical batch. -/
inductive StepResult where
  | Completed : Nat → StepResult
  | FatalFailure : FailReason → StepResult
deriving DecidableEq

/-- Modelled from the spec: observable events of one run, namely rollback
invocations and split-factor change events. -/
inductive TraceEv where
  | rollback : TraceEv
  | kChange : Nat → Nat → TraceEv
deriving DecidableEq

/-- Modelled from the spec: the sizes of the k contiguous near-equal
micro-batches of a logical batch of size N, remainder spread over the
first partitions. -/
def microBatchSizes (N k : Nat) : List Nat :=
  (List.range k).map (fun i => N / k + if i < N % k then 1 else 0)

/-- Split a list into contiguous pieces of the given sizes. -/
def splitAtSizes {α : Type} : List Nat → List α → List (List α)
  | [], _ => []
  | n :: ns, xs => xs.take n :: splitAtSizes ns (xs.drop n)

/-- Modelled from the spec: the micro-batch plan for split factor k,
with k capped at the batch size. -/
def microBatchPlan {α : Type} (k : Nat) (batch : List α) : List (List α) :=
  splitAtSizes (microBatchSizes batch.length (min k batch.length)) batch

/-- Modelled from the spec: result of one attempt over the micro-batches
of a plan, recording the index of the first failing micro-batch. -/
inductive AttemptResult where
  | allOk : AttemptResult
  | exhausted : Nat → AttemptResult
  | failed : String → Nat → AttemptResult
deriving DecidableEq

/-- Modelled from the spec: run the step function over the micro-batches
in order, stopping at the first failure; the flag passed to the step
function tells whether this is the last micro-batch of the attempt. -/
def runAttemptGo {α : Type} (stepFn : List α → Bool → StepOutcome) :
    List (List α) → Nat → AttemptResult
  | [], _ => AttemptResult.allOk
  | mb :: rest, i =>
    match stepFn mb rest.isEmpty with
    | StepOutcome.ok => runAttemptGo stepFn rest (i + 1)
    | StepOutcome.resourceExhausted => AttemptResult.exhausted i
    | StepOutcome.otherError r => AttemptResult.failed r i

/-- One attempt over a list of micro-batches, starting at index 0. -/
def runAttempt {α : Type} (stepFn : List α → Bool → StepOutcome)
    (mbs : List (List α)) : AttemptResult :=
  runAttemptGo stepFn mbs 0

/-- Modelled from the spec: the trace of one controller run: its result,
the final split factor, and the ordered log of rollback and k-change
events. -/
structure RunTrace where
  result : StepResult
  finalK : Nat
  log : List TraceEv
deriving DecidableEq

/-- Modelled from the spec: one attempt at the current split factor k.
Either the run ends here (all micro-batches succeeded, a non-retryable
failure occurred, or resource exhaustion hit while k already equals the
batch size), or the controller doubles k capped at the batch size and
retries. -/
def attemptStep {α : Type} (stepFn : List α → Bool → StepOutcome)
    (batch : List α) (k : Nat) : Sum RunTrace Nat :=
  match runAttempt stepFn (microBatchPlan k batch) with
  | AttemptResult.allOk => Sum.inl ⟨StepResult.Completed k, k, []⟩
  | AttemptResult.failed r _ =>
      Sum.inl ⟨StepResult.FatalFailure (FailReason.nonRetryable r), k, []⟩
  | AttemptResult.exhausted _ =>
      if batch.length ≤ k then
        Sum.inl ⟨StepResult.FatalFailure FailReason.splitExhausted, k,
                 [TraceEv.rollback]⟩
      else
        Sum.inr (min (2 * k) batch.length)

/-- Modelled from the spec: the retry loop of the controller, with fuel
bounding the number of retries (a fuel of the batch size is always
sufficient, since k strictly increases up to the batch size). On each
resource-exhaustion retry one rollback event and one k-change event are
logged before the whole logical batch is reattempted from its first
micro-batch at the new split factor. -/
def runStepGo {α : Type} (stepFn : List α → Bool → StepOutcome)
    (batch : List α) : Nat → Nat → RunTrace
  | 0, k =>
    match attemptStep stepFn batch k with
    | Sum.inl t => t
    | Sum.inr _ =>
        ⟨StepResult.FatalFailure FailReason.splitExhausted, k, [TraceEv.rollback]⟩
  | fuel + 1, k =>
    match attemptStep stepFn batch k with
    | Sum.inl t => t
    | Sum.inr k2 =>
        let t := runStepGo stepFn batch fuel k2
        ⟨t.result, t.finalK, TraceEv.rollback :: TraceEv.kChange k k2 :: t.log⟩

/-- Modelled from the spec: controller state holding the current split
factor, the number of increases, and the last failure diagnostic. -/
structure ControllerState where
  k : Nat
  numIncreases : Nat
  lastFailure : Option FailReason
deriving DecidableEq

/-- Modelled from the spec: the state at the start of a training run,
with split factor 1. -/
def ControllerState.initial : ControllerState := ⟨1, 0, none⟩

/-- Number of k-change events in a log. -/
def countKChanges : List TraceEv → Nat
  | [] => 0
  | TraceEv.kChange _ _ :: rest => countKChanges rest + 1
  | TraceEv.rollback :: rest => countKChanges rest

/-- Number of rollback events in a log. -/
def countRollbacks : List TraceEv → Nat
  | [] => 0
  | TraceEv.rollback :: rest => countRollbacks rest + 1
  | TraceEv.kChange _ _ :: rest => countRollbacks rest

/-- Modelled from the spec: the public operation of the controller.
It runs the retry loop at the current split factor and returns the step
result, the updated controller state, and the event log of the run. -/
def run_step {α : Type} (st : ControllerState) (batch : List α)
    (stepFn : List α → Bool → StepOutcome) :
    StepResult × ControllerState × List TraceEv :=
  let t := runStepGo stepFn batch batch.length st.k
  (t.result,
   ⟨t.finalK, st.numIncreases + countKChanges t.log,
    match t.result with
    | StepResult.FatalFailure r => some r
    | StepResult.Completed _ => st.lastFailure⟩,
   t.log)

/-- The partitioning law of the micro-batch plan: k pieces, concatenating
back to the batch, piece sizes given by the size table, sizes summing to
the batch size, no empty piece, pairwise size difference at most 1, and
sizes non-increasing so the remainder sits on the first partitions. -/
def planLaw (batch : List Nat) (k : Nat) : Prop :=
  (microBatchPlan k batch).length = k ∧
  (microBatchPlan k batch).flatten = batch ∧
  (microBatchPlan k batch).map List.length = microBatchSizes batch.length k ∧
  (microBatchSizes batch.length k).sum = batch.length ∧
  (∀ mb ∈ microBatchPlan k batch, 0 < mb.length) ∧
  (∀ mb1 ∈ microBatchPlan k batch, ∀ mb2 ∈ microBatchPlan k batch,
    mb1.length ≤ mb2.length + 1) ∧
  (∀ i j : Nat, i ≤ j → j < k →
    ((microBatchPlan k batch).map List.length).getD j 0 ≤
      ((microBatchPlan k batch).map List.length).getD i 0)

/-- Step function of spec Scenario A: resource exhaustion whenever the
micro-batch holds at least 3 samples, success otherwise, so that the
attempts at split factors 1 and 2 on a batch of 8 samples exhaust and the
attempt at split factor 4 succeeds. -/
def scnA : List Nat → Bool → StepOutcome := fun mb _ =>
  if 3 ≤ mb.length then StepOutcome.resourceExhausted else StepOutcome.ok

/-- Step function of spec Scenario B: resource exhaustion on every call. -/
def scnB : List Nat → Bool → StepOutcome := fun _ _ =>
  StepOutcome.resourceExhausted

/-- Step function of spec Scenario C: a non-retryable error on every call. -/
def scnC : List Nat → Bool → StepOutcome := fun _ _ =>
  StepOutcome.otherError "boom"

/-- Step function that always succeeds. -/
def okFn : List Nat → Bool → StepOutcome := fun _ _ => StepOutcome.ok

/-- From the notebook globals: possible values for a pixel in the
annotation image to take. -/
def num_classes : Nat := 20

/-- From the dataset item accessor: the label remap applied to each
decoded pixel value, sending 255 to 19 and leaving every other value
unchanged. -/
def remapLabelPixel (v : Nat) : Nat := if v = 255 then 19 else v

/-- From the dataset item accessor: the remap applied to the whole
decoded label image, viewed as its list of pixel values. -/
def getitemLabel (ys : List Nat) : List Nat := ys.map remapLabelPixel

/-- From the writer: the number of training images, the floor of the
image count times the training ratio. -/
def num_training_images (numImages : Nat) (r : ℚ) : Nat :=
  (Int.floor ((numImages : ℚ) * r)).toNat

/-- The index range [s, e) iterated by the sample generator. -/
def pyRange (s e : Nat) : List Nat := (List.range (e - s)).map (fun j => s + j)

/-- From the writer: the indices written to the training dataset. -/
def trainIndices (numImages : Nat) (r : ℚ) : List Nat :=
  pyRange 0 (num_training_images numImages r)

/-- From the writer: the indices written to the test dataset. -/
def testIndices (numImages : Nat) (r : ℚ) : List Nat :=
  pyRange (num_training_images numImages r) numImages

/-- From the sample generator: big-endian two's-complement encoding of a
signed 64-bit integer into 8 bytes. -/
def pack_q (i : Int) : List Nat :=
  let n : Nat := (i % (2 ^ 64 : Int)).toNat
  [n / 256 ^ 7 % 256, n / 256 ^ 6 % 256, n / 256 ^ 5 % 256,
   n / 256 ^ 4 % 256, n / 256 ^ 3 % 256, n / 256 ^ 2 % 256,
   n / 256 % 256, n % 256]

/-- From the dataset decoders: big-endian signed 64-bit decoding of 8
bytes back to an integer. -/
def unpack_q (bs : List Nat) : Int :=
  let n : Nat := bs.foldl (fun acc b => acc * 256 + b) 0
  if n < 2 ^ 63 then (n : Int) else (n : Int) - 2 ^ 64

lemma sizesSumAux (c m : Nat) :
    ∀ j : Nat, ((List.range j).map (fun i => c + if i < m then 1 else 0)).sum
      = j * c + min j m := by
  intro j
  induction j with
  | zero => simp
  | succ j ih =>
    rw [List.range_succ, List.map_append, List.sum_append, ih]
    simp only [List.map_cons, List.map_nil, List.sum_cons, List.sum_nil]
    rw [Nat.succ_mul]
    by_cases h : j < m
    · rw [if_pos h]
      omega
    · rw [if_neg h]
      omega

lemma microBatchSizes_length (N k : Nat) : (microBatchSizes N k).length = k := by
  simp [microBatchSizes]

lemma microBatchSizes_sum (N k : Nat) (hk : 0 < k) :
    (microBatchSizes N k).sum = N := by
  rw [microBatchSizes, sizesSumAux]
  have hmod : N % k < k := Nat.mod_lt _ hk
  have hdm := Nat.div_add_mod N k
  rw [Nat.min_eq_right (Nat.le_of_lt hmod)]
  omega

lemma microBatchSizes_mem (N k s : Nat) (hs : s ∈ microBatchSizes N k) :
    s = N / k ∨ s = N / k + 1 := by
  simp only [microBatchSizes, List.mem_map, List.mem_range] at hs
  obtain ⟨i, hi, rfl⟩ := hs
  by_cases h : i < N % k
  · right
    rw [if_pos h]
  · left
    rw [if_neg h]
    omega

lemma microBatchSizes_pos (N k : Nat) (hk : 0 < k) (hkN : k ≤ N) :
    ∀ s ∈ microBatchSizes N k, 0 < s := by
  intro s hs
  have h1 : 1 ≤ N / k := (Nat.one_le_div_iff hk).mpr hkN
  rcases microBatchSizes_mem N k s hs with h | h <;> omega

lemma splitAtSizes_join {α : Type} :
    ∀ (ns : List Nat) (xs : List α),
      (splitAtSizes ns xs).flatten = xs.take ns.sum := by
  intro ns
  induction ns with
  | nil =>
    intro xs
    simp [splitAtSizes]
  | cons n ns ih =>
    intro xs
    simp only [splitAtSizes, List.flatten_cons, List.sum_cons, ih, List.take_add]

lemma splitAtSizes_map_length {α : Type} :
    ∀ (ns : List Nat) (xs : List α), ns.sum ≤ xs.length →
      (splitAtSizes ns xs).map List.length = ns := by
  intro ns
  induction ns with
  | nil =>
    intro xs _
    simp [splitAtSizes]
  | cons n ns ih =>
    intro xs h
    simp only [List.sum_cons] at h
    have h2 : ns.sum ≤ (xs.drop n).length := by
      rw [List.length_drop]
      omega
    simp only [splitAtSizes, List.map_cons, List.length_take, ih _ h2]
    congr 1
    omega

/-- C3: for every batch of size N ≥ 1 and split factor k with 1 ≤ k ≤ N,
the micro-batch plan produces exactly k contiguous micro-batches whose
sizes sum exactly to N, differ pairwise by at most 1 with the remainder
spread over the first partitions, and none of which is empty. -/
theorem c3_partition_law (batch : List Nat) (k : Nat)
    (hk : 0 < k) (hkN : k ≤ batch.length) : planLaw batch k := by
  have hcap : min k batch.length = k := Nat.min_eq_left hkN
  unfold planLaw microBatchPlan
  rw [hcap]
  have hsum : (microBatchSizes batch.length k).sum = batch.length :=
    microBatchSizes_sum batch.length k hk
  have hlen : (splitAtSizes (microBatchSizes batch.length k) batch).map
      List.length = microBatchSizes batch.length k :=
    splitAtSizes_map_length _ _ (by rw [hsum])
  refine ⟨?_, ?_, hlen, hsum, ?_, ?_, ?_⟩
  · have h := congrArg List.length hlen
    rw [List.length_map, microBatchSizes_length] at h
    exact h
  · rw [splitAtSizes_join, hsum]
    exact List.take_length batch
  · intro mb hmb
    have hmem := List.mem_map_of_mem List.length hmb
    rw [hlen] at hmem
    exact microBatchSizes_pos batch.length k hk hkN _ hmem
  · intro mb1 h1 mb2 h2
    have hm1 := List.mem_map_of_mem List.length h1
    have hm2 := List.mem_map_of_mem List.length h2
    rw [hlen] at hm1 hm2
    rcases microBatchSizes_mem _ _ _ hm1 with e1 | e1 <;>
      rcases microBatchSizes_mem _ _ _ hm2 with e2 | e2 <;> omega
  · intro i j hij hjk
    rw [hlen]
    have hki : i < (microBatchSizes batch.length k).length := by
      rw [microBatchSizes_length]
      omega
    have hkj : j < (microBatchSizes batch.length k).length := by
      rw [microBatchSizes_length]
      omega
    rw [List.getD_eq_getElem _ _ hki, List.getD_eq_getElem _ _ hkj]
    simp only [microBatchSizes, List.getElem_map, List.getElem_range]
    split_ifs <;> omega

/-- Witness for C3 at a batch of size 5 and split factor 2. -/
theorem c3_partition_law_witness :
    0 < 2 ∧ 2 ≤ ([0, 1, 2, 3, 4] : List Nat).length ∧
      planLaw [0, 1, 2, 3, 4] 2 :=
  ⟨by decide, by decide, c3_partition_law [0, 1, 2, 3, 4] 2 (by decide) (by decide)⟩

lemma runAttemptGo_allOk {α : Type} (stepFn : List α → Bool → StepOutcome) :
    ∀ (mbs : List (List α)) (i : Nat),
      (∀ mb ∈ mbs, ∀ last, stepFn mb last = StepOutcome.ok) →
      runAttemptGo stepFn mbs i = AttemptResult.allOk := by
  intro mbs
  induction mbs with
  | nil =>
    intro i _
    rfl
  | cons mb rest ih =>
    intro i h
    have hmb := h mb (List.mem_cons_self mb rest) rest.isEmpty
    simp only [runAttemptGo, hmb]
    exact ih (i + 1) (fun m hm last => h m (List.mem_cons_of_mem mb hm) last)

lemma attemptStep_inl {α : Type} (stepFn : List α → Bool → StepOutcome)
    (batch : List α) (k : Nat) (t : RunTrace)
    (h : attemptStep stepFn batch k = Sum.inl t) :
    t.finalK = k ∧ (t.log = [] ∨ t.log = [TraceEv.rollback]) ∧
      (∀ m, t.result = StepResult.Completed m → t.finalK = m) := by
  unfold attemptStep at h
  cases hA : runAttempt stepFn (microBatchPlan k batch) with
  | allOk =>
    simp only [hA] at h
    injection h with h
    subst h
    exact ⟨rfl, Or.inl rfl, fun m hm => by cases hm; rfl⟩
  | failed r i =>
    simp only [hA] at h
    injection h with h
    subst h
    exact ⟨rfl, Or.inl rfl, fun m hm => by cases hm⟩
  | exhausted i =>
    simp only [hA] at h
    by_cases hle : batch.length ≤ k
    · rw [if_pos hle] at h
      injection h with h
      subst h
      exact ⟨rfl, Or.inr rfl, fun m hm => by cases hm⟩
    · rw [if_neg hle] at h
      exact Sum.noConfusion h

lemma attemptStep_inr {α : Type} (stepFn : List α → Bool → StepOutcome)
    (batch : List α) (k k2 : Nat)
    (h : attemptStep stepFn batch k = Sum.inr k2) :
    k2 = min (2 * k) batch.length ∧ k < batch.length := by
  unfold attemptStep at h
  cases hA : runAttempt stepFn (microBatchPlan k batch) with
  | allOk =>
    simp only [hA] at h
    exact Sum.noConfusion h
  | failed r i =>
    simp only [hA] at h
    exact Sum.noConfusion h
  | exhausted i =>
    simp only [hA] at h
    by_cases hle : batch.length ≤ k
    · rw [if_pos hle] at h
      exact Sum.noConfusion h
    · rw [if_neg hle] at h
      injection h with h
      constructor
      · exact h.symm
      · omega

/-- C1: if all k micro-batches of an attempt succeed, the controller
returns Completed at the current split factor with an empty event log; and
in spec Scenario A (batch of 8, exhaustion at split factors 1 and 2,
success at 4) the controller returns Completed 4 after exactly two
rollbacks and the two k-change events 1 to 2 and 2 to 4. -/
theorem c1_all_ok_completed :
    (∀ (batch : List Nat) (k fuel : Nat)
       (stepFn : List Nat → Bool → StepOutcome),
       (∀ mb ∈ microBatchPlan k batch, ∀ last, stepFn mb last = StepOutcome.ok) →
       runStepGo stepFn batch fuel k = ⟨StepResult.Completed k, k, []⟩) ∧
    run_step ControllerState.initial (List.range 8) scnA =
      (StepResult.Completed 4, ⟨4, 2, none⟩,
       [TraceEv.rollback, TraceEv.kChange 1 2, TraceEv.rollback,
        TraceEv.kChange 2 4]) := by
  constructor
  · intro batch k fuel stepFn h
    have hA : runAttempt stepFn (microBatchPlan k batch) = AttemptResult.allOk :=
      runAttemptGo_allOk stepFn _ 0 h
    have hAS : attemptStep stepFn batch k =
        Sum.inl ⟨StepResult.Completed k, k, []⟩ := by
      simp only [attemptStep, hA]
    cases fuel <;> simp only [runStepGo, hAS]
  · decide

/-- Witness for C1: an always-succeeding step function completes at the
current split factor 2 on a batch of 4. -/
theorem c1_all_ok_completed_witness :
    (∀ mb ∈ microBatchPlan 2 [0, 1, 2, 3], ∀ last, okFn mb last = StepOutcome.ok) ∧
    runStepGo okFn [0, 1, 2, 3] 4 2 = ⟨StepResult.Completed 2, 2, []⟩ :=
  ⟨by decide, c1_all_ok_completed.1 [0, 1, 2, 3] 2 4 okFn (by decide)⟩

/-- C4: if the attempt exhausts the resource while the split factor
already equals the batch size, the controller returns the fatal
split-exhausted result after one final rollback and without any further
doubling; and in spec Scenario B (batch of 3, exhaustion at every split
factor) the run ends in the fatal split-exhausted result once k reaches 3. -/
theorem c4_split_exhausted :
    (∀ (batch : List Nat) (stepFn : List Nat → Bool → StepOutcome)
       (fuel k i : Nat), k = batch.length →
       runAttempt stepFn (microBatchPlan k batch) = AttemptResult.exhausted i →
       runStepGo stepFn batch fuel k =
         ⟨StepResult.FatalFailure FailReason.splitExhausted, k,
          [TraceEv.rollback]⟩) ∧
    run_step ControllerState.initial [0, 1, 2] scnB =
      (StepResult.FatalFailure FailReason.splitExhausted,
       ⟨3, 2, some FailReason.splitExhausted⟩,
       [TraceEv.rollback, TraceEv.kChange 1 2, TraceEv.rollback,
        TraceEv.kChange 2 3, TraceEv.rollback]) := by
  constructor
  · intro batch stepFn fuel k i hkN hA
    have hAS : attemptStep stepFn batch k =
        Sum.inl ⟨StepResult.FatalFailure FailReason.splitExhausted, k,
                 [TraceEv.rollback]⟩ := by
      simp only [attemptStep, hA]
      rw [if_pos (Nat.le_of_eq hkN.symm)]
    cases fuel <;> simp only [runStepGo, hAS]
  · decide

/-- Witness for C4: a single-sample batch at split factor 1 with an
always-exhausting step function. -/
theorem c4_split_exhausted_witness :
    (1 = ([0] : List Nat).length) ∧
    runAttempt scnB (microBatchPlan 1 [0]) = AttemptResult.exhausted 0 ∧
    runStepGo scnB [0] 1 1 =
      ⟨StepResult.FatalFailure FailReason.splitExhausted, 1,
       [TraceEv.rollback]⟩ :=
  ⟨by decide, by decide,
   c4_split_exhausted.1 [0] scnB 1 1 0 (by decide) (by decide)⟩

/-- C5: any failure other than resource exhaustion is propagated
immediately as a fatal result carrying the original reason, with an empty
event log, so no rollback and no retry; and in spec Scenario C (batch of
16, a non-retryable error on the first call) the run ends immediately with
that reason and no events. -/
theorem c5_non_retryable :
    (∀ (batch : List Nat) (stepFn : List Nat → Bool → StepOutcome)
       (fuel k i : Nat) (r : String),
       runAttempt stepFn (microBatchPlan k batch) = AttemptResult.failed r i →
       runStepGo stepFn batch fuel k =
         ⟨StepResult.FatalFailure (FailReason.nonRetryable r), k, []⟩) ∧
    run_step ControllerState.initial (List.range 16) scnC =
      (StepResult.FatalFailure (FailReason.nonRetryable "boom"),
       ⟨1, 0, some (FailReason.nonRetryable "boom")⟩, []) := by
  constructor
  · intro batch stepFn fuel k i r hA
    have hAS : attemptStep stepFn batch k =
        Sum.inl ⟨StepResult.FatalFailure (FailReason.nonRetryable r), k, []⟩ := by
      simp only [attemptStep, hA]
    cases fuel <;> simp only [runStepGo, hAS]
  · decide

/-- Witness for C5: a batch of 2 at split factor 1 with a step function
failing with a non-retryable error on the first call. -/
theorem c5_non_retryable_witness :
    runAttempt scnC (microBatchPlan 1 [0, 1]) = AttemptResult.failed "boom" 0 ∧
    runStepGo scnC [0, 1] 2 1 =
      ⟨StepResult.FatalFailure (FailReason.nonRetryable "boom"), 1, []⟩ :=
  ⟨by decide, c5_non_retryable.1 [0, 1] scnC 2 1 0 "boom" (by decide)⟩

/-- C2: starting from a split factor that is a power of two or already
capped to the batch size, the final split factor stays at most the batch
size, remains a power of two unless capped to the batch size, and each
logged k-change doubles the previous split factor capped at the batch
size (after which the same logical batch is retried from its first
micro-batch). -/
theorem c2_doubling_invariant :
    ∀ (batch : List Nat) (stepFn : List Nat → Bool → StepOutcome)
      (fuel k : Nat),
      0 < k → k ≤ batch.length →
      ((∃ j, k = 2 ^ j) ∨ k = batch.length) →
      (runStepGo stepFn batch fuel k).finalK ≤ batch.length ∧
      ((∃ j, (runStepGo stepFn batch fuel k).finalK = 2 ^ j) ∨
        (runStepGo stepFn batch fuel k).finalK = batch.length) ∧
      (∀ p n, TraceEv.kChange p n ∈ (runStepGo stepFn batch fuel k).log →
        n = min (2 * p) batch.length) := by
  intro batch stepFn fuel
  induction fuel with
  | zero =>
    intro k hk hkN hp2
    rcases hAS : attemptStep stepFn batch k with t | k2
    · obtain ⟨hfk, hlog, _⟩ := attemptStep_inl stepFn batch k t hAS
      simp only [runStepGo, hAS]
      refine ⟨by omega, ?_, ?_⟩
      · rw [hfk]
        exact hp2
      · intro p n hmem
        rcases hlog with h | h <;> rw [h] at hmem <;> simp at hmem
    · simp only [runStepGo, hAS]
      refine ⟨by omega, hp2, ?_⟩
      intro p n hmem
      simp at hmem
  | succ fuel ih =>
    intro k hk hkN hp2
    rcases hAS : attemptStep stepFn batch k with t | k2
    · obtain ⟨hfk, hlog, _⟩ := attemptStep_inl stepFn batch k t hAS
      simp only [runStepGo, hAS]
      refine ⟨by omega, ?_, ?_⟩
      · rw [hfk]
        exact hp2
      · intro p n hmem
        rcases hlog with h | h <;> rw [h] at hmem <;> simp at hmem
    · obtain ⟨hk2, hlt⟩ := attemptStep_inr stepFn batch k k2 hAS
      have hk2pos : 0 < k2 := by omega
      have hk2le : k2 ≤ batch.length := by omega
      have hp2' : (∃ j, k2 = 2 ^ j) ∨ k2 = batch.length := by
        by_cases hc : 2 * k ≤ batch.length
        · rcases hp2 with ⟨j, hj⟩ | hj
          · left
            refine ⟨j + 1, ?_⟩
            rw [hk2, min_eq_left hc, pow_succ, hj]
            ring
          · omega
        · right
          omega
      obtain ⟨ih1, ih2, ih3⟩ := ih k2 hk2pos hk2le hp2'
      simp only [runStepGo, hAS]
      refine ⟨ih1, ih2, ?_⟩
      intro p n hmem
      simp only [List.mem_cons] at hmem
      rcases hmem with h | h | h
      · cases h
      · injection h with h1 h2
        subst h1
        subst h2
        exact hk2
      · exact ih3 p n h

/-- Witness for C2 on a batch of 3 with an always-exhausting step
function, starting at split factor 1. -/
theorem c2_doubling_invariant_witness :
    0 < 1 ∧ 1 ≤ ([0, 1, 2] : List Nat).length ∧ (1 : Nat) = 2 ^ 0 ∧
    ((runStepGo scnB [0, 1, 2] 3 1).finalK ≤ ([0, 1, 2] : List Nat).length ∧
     ((∃ j, (runStepGo scnB [0, 1, 2] 3 1).finalK = 2 ^ j) ∨
       (runStepGo scnB [0, 1, 2] 3 1).finalK = ([0, 1, 2] : List Nat).length) ∧
     (∀ p n, TraceEv.kChange p n ∈ (runStepGo scnB [0, 1, 2] 3 1).log →
       n = min (2 * p) ([0, 1, 2] : List Nat).length)) :=
  ⟨by decide, by decide, by decide,
   c2_doubling_invariant [0, 1, 2] scnB 3 1 (by decide) (by decide)
     (Or.inl ⟨0, by decide⟩)⟩

/-- C6: the event log of any run decomposes into one block per
resource-exhaustion retry, each block being exactly one rollback followed
by the k-change event of that retry, possibly followed by one final
rollback when the run ends in the fatal split-exhausted case; hence
rollback is invoked exactly once per exhausted attempt, before the retry
begins, and the rollback count exceeds the k-change count by at most the
final fatal rollback. -/
theorem c6_rollback_once_per_retry :
    ∀ (batch : List Nat) (stepFn : List Nat → Bool → StepOutcome)
      (fuel k : Nat),
      ∃ (ps : List (Nat × Nat)) (b : Bool),
        (runStepGo stepFn batch fuel k).log =
          (ps.map (fun p => [TraceEv.rollback, TraceEv.kChange p.1 p.2])).flatten
            ++ (cond b [TraceEv.rollback] []) ∧
        countRollbacks (runStepGo stepFn batch fuel k).log =
          countKChanges (runStepGo stepFn batch fuel k).log + (cond b 1 0) := by
  intro batch stepFn fuel
  induction fuel with
  | zero =>
    intro k
    rcases hAS : attemptStep stepFn batch k with t | k2
    · obtain ⟨_, hlog, _⟩ := attemptStep_inl stepFn batch k t hAS
      rcases hlog with h | h
      · refine ⟨[], false, ?_, ?_⟩ <;>
          simp [runStepGo, hAS, h, countRollbacks, countKChanges]
      · refine ⟨[], true, ?_, ?_⟩ <;>
          simp [runStepGo, hAS, h, countRollbacks, countKChanges]
    · refine ⟨[], true, ?_, ?_⟩ <;>
        simp [runStepGo, hAS, countRollbacks, countKChanges]
  | succ fuel ih =>
    intro k
    rcases hAS : attemptStep stepFn batch k with t | k2
    · obtain ⟨_, hlog, _⟩ := attemptStep_inl stepFn batch k t hAS
      rcases hlog with h | h
      · refine ⟨[], false, ?_, ?_⟩ <;>
          simp [runStepGo, hAS, h, countRollbacks, countKChanges]
      · refine ⟨[], true, ?_, ?_⟩ <;>
          simp [runStepGo, hAS, h, countRollbacks, countKChanges]
    · obtain ⟨ps, b, hlog, hcount⟩ := ih k2
      refine ⟨(k, k2) :: ps, b, ?_, ?_⟩
      · simp only [runStepGo, hAS, List.map_cons, List.flatten_cons]
        rw [hlog]
        simp
      · simp only [runStepGo, hAS, countRollbacks, countKChanges]
        omega

lemma runStepGo_le_finalK {α : Type} (stepFn : List α → Bool → StepOutcome)
    (batch : List α) :
    ∀ (fuel k : Nat), k ≤ (runStepGo stepFn batch fuel k).finalK := by
  intro fuel
  induction fuel with
  | zero =>
    intro k
    rcases hAS : attemptStep stepFn batch k with t | k2
    · obtain ⟨hfk, _, _⟩ := attemptStep_inl stepFn batch k t hAS
      simp only [runStepGo, hAS]
      omega
    · simp only [runStepGo, hAS]
      omega
  | succ fuel ih =>
    intro k
    rcases hAS : attemptStep stepFn batch k with t | k2
    · obtain ⟨hfk, _, _⟩ := attemptStep_inl stepFn batch k t hAS
      simp only [runStepGo, hAS]
      omega
    · obtain ⟨hk2, hlt⟩ := attemptStep_inr stepFn batch k k2 hAS
      have h2 := ih k2
      simp only [runStepGo, hAS]
      omega

lemma runStepGo_completed_finalK {α : Type}
    (stepFn : List α → Bool → StepOutcome) (batch : List α) :
    ∀ (fuel k m : Nat),
      (runStepGo stepFn batch fuel k).result = StepResult.Completed m →
      (runStepGo stepFn batch fuel k).finalK = m := by
  intro fuel
  induction fuel with
  | zero =>
    intro k m h
    rcases hAS : attemptStep stepFn batch k with t | k2
    · obtain ⟨_, _, hcomp⟩ := attemptStep_inl stepFn batch k t hAS
      simp only [runStepGo, hAS] at h ⊢
      exact hcomp m h
    · simp only [runStepGo, hAS] at h
      cases h
  | succ fuel ih =>
    intro k m h
    rcases hAS : attemptStep stepFn batch k with t | k2
    · obtain ⟨_, _, hcomp⟩ := attemptStep_inl stepFn batch k t hAS
      simp only [runStepGo, hAS] at h ⊢
      exact hcomp m h
    · simp only [runStepGo, hAS] at h ⊢
      exact ih k2 m h

/-- C7: the split factor held in the controller state never decreases
across a run-step call, and once a run returns Completed at some split
factor, the updated state holds exactly that split factor, so a
subsequent call on a fresh logical batch starts at the previously raised
split factor and its own final split factor never drops below it. -/
theorem c7_monotone_k :
    ∀ (st : ControllerState) (batch : List Nat)
      (stepFn : List Nat → Bool → StepOutcome),
      st.k ≤ (run_step st batch stepFn).2.1.k ∧
      ∀ ku, (run_step st batch stepFn).1 = StepResult.Completed ku →
        (run_step st batch stepFn).2.1.k = ku ∧
        ∀ (batch2 : List Nat) (stepFn2 : List Nat → Bool → StepOutcome),
          ku ≤ (run_step (run_step st batch stepFn).2.1 batch2 stepFn2).2.1.k := by
  intro st batch stepFn
  constructor
  · exact runStepGo_le_finalK stepFn batch batch.length st.k
  · intro ku h
    have h3 := runStepGo_completed_finalK stepFn batch batch.length st.k ku h
    constructor
    · exact h3
    · intro batch2 stepFn2
      show ku ≤ (runStepGo stepFn2 batch2 batch2.length
        (runStepGo stepFn batch batch.length st.k).finalK).finalK
      rw [h3]
      exact runStepGo_le_finalK stepFn2 batch2 batch2.length ku

/-- Witness for C7: an all-succeeding run on a batch of 2 completes at
split factor 1 and a subsequent run starts at and stays at least 1. -/
theorem c7_monotone_k_witness :
    ControllerState.initial.k ≤
      (run_step ControllerState.initial [0, 1] okFn).2.1.k ∧
    (run_step ControllerState.initial [0, 1] okFn).1 =
      StepResult.Completed 1 ∧
    (run_step ControllerState.initial [0, 1] okFn).2.1.k = 1 ∧
    1 ≤ (run_step (run_step ControllerState.initial [0, 1] okFn).2.1
      [2, 3] okFn).2.1.k := by
  have h := c7_monotone_k ControllerState.initial [0, 1] okFn
  have hc : (run_step ControllerState.initial [0, 1] okFn).1 =
      StepResult.Completed 1 := by decide
  exact ⟨h.1, hc, (h.2 1 hc).1, (h.2 1 hc).2 [2, 3] okFn⟩

/-- C8: the label remap of the dataset item accessor preserves length,
sends every decoded pixel value 255 to class 19 (one less than the number
of classes), leaves every other pixel value unchanged, and for source
annotations with pixel values in 0..18 or 255 every returned value is
below the number of classes. -/
theorem c8_label_remap :
    ∀ (ys : List Nat),
      (getitemLabel ys).length = ys.length ∧
      (∀ i, i < ys.length → ys.getD i 0 = 255 →
        (getitemLabel ys).getD i 0 = num_classes - 1) ∧
      (∀ i, i < ys.length → ys.getD i 0 ≠ 255 →
        (getitemLabel ys).getD i 0 = ys.getD i 0) ∧
      ((∀ v ∈ ys, v ≤ 18 ∨ v = 255) →
        ∀ w ∈ getitemLabel ys, w < num_classes) := by
  intro ys
  refine ⟨by simp [getitemLabel], ?_, ?_, ?_⟩
  · intro i hi h255
    have hi2 : i < (getitemLabel ys).length := by
      simpa [getitemLabel] using hi
    rw [List.getD_eq_getElem _ _ hi2]
    rw [List.getD_eq_getElem _ _ hi] at h255
    simp only [getitemLabel, List.getElem_map, remapLabelPixel]
    rw [if_pos h255]
    rfl
  · intro i hi hne
    have hi2 : i < (getitemLabel ys).length := by
      simpa [getitemLabel] using hi
    rw [List.getD_eq_getElem _ _ hi2, List.getD_eq_getElem _ _ hi]
    rw [List.getD_eq_getElem _ _ hi] at hne
    simp only [getitemLabel, List.getElem_map, remapLabelPixel]
    rw [if_neg hne]
  · intro hv w hw
    simp only [getitemLabel, List.mem_map] at hw
    obtain ⟨v, hv2, rfl⟩ := hw
    rcases hv v hv2 with h | h <;>
      simp only [remapLabelPixel, num_classes] <;>
      split_ifs <;> omega

/-- Witness for C8 at the annotation [0, 5, 255, 18] and pixel index 2. -/
theorem c8_label_remap_witness :
    2 < ([0, 5, 255, 18] : List Nat).length ∧
    ([0, 5, 255, 18] : List Nat).getD 2 0 = 255 ∧
    (getitemLabel [0, 5, 255, 18]).getD 2 0 = num_classes - 1 :=
  ⟨by decide, by decide,
   (c8_label_remap [0, 5, 255, 18]).2.1 2 (by decide) (by decide)⟩

lemma pyRange_zero (e : Nat) : pyRange 0 e = List.range e := by
  simp [pyRange]

lemma mem_pyRange (s e i : Nat) : i ∈ pyRange s e ↔ s ≤ i ∧ i < e := by
  simp only [pyRange, List.mem_map, List.mem_range]
  constructor
  · rintro ⟨j, hj, rfl⟩
    omega
  · intro h
    exact ⟨i - s, by omega, by omega⟩

lemma num_training_images_le (N : Nat) (r : ℚ) (h0 : 0 ≤ r) (h1 : r ≤ 1) :
    num_training_images N r ≤ N := by
  unfold num_training_images
  have hle : (N : ℚ) * r ≤ (N : ℚ) := by
    calc (N : ℚ) * r ≤ (N : ℚ) * 1 :=
          mul_le_mul_of_nonneg_left h1 (by positivity)
      _ = (N : ℚ) := mul_one _
  have hfl : Int.floor ((N : ℚ) * r) ≤ Int.floor ((N : ℚ)) :=
    Int.floor_le_floor hle
  rw [Int.floor_natCast] at hfl
  exact Int.toNat_le.mpr hfl

/-- C9: for every image count and ratio between 0 and 1, the training
index range and the test index range written by the dataset writer are
disjoint and concatenate to exactly the range of all image indices, so
every sample index is written to exactly one of the two datasets. -/
theorem c9_split_partition :
    ∀ (numImages : Nat) (r : ℚ), 0 ≤ r → r ≤ 1 →
      trainIndices numImages r ++ testIndices numImages r =
        List.range numImages ∧
      (∀ i, ¬(i ∈ trainIndices numImages r ∧ i ∈ testIndices numImages r)) ∧
      (∀ i, i < numImages →
        (i ∈ trainIndices numImages r ∧ i ∉ testIndices numImages r) ∨
        (i ∉ trainIndices numImages r ∧ i ∈ testIndices numImages r)) := by
  intro N r h0 h1
  have hm : num_training_images N r ≤ N := num_training_images_le N r h0 h1
  refine ⟨?_, ?_, ?_⟩
  · unfold trainIndices testIndices
    rw [pyRange_zero]
    have hNe : N = num_training_images N r + (N - num_training_images N r) := by
      omega
    conv_rhs => rw [hNe]
    rw [List.range_add]
    simp [pyRange]
  · intro i
    simp only [trainIndices, testIndices, mem_pyRange]
    omega
  · intro i hi
    simp only [trainIndices, testIndices, mem_pyRange]
    omega

/-- Witness for C9 at the notebook values: 100 images and ratio 9/10. -/
theorem c9_split_partition_witness :
    (0 : ℚ) ≤ 9 / 10 ∧ (9 / 10 : ℚ) ≤ 1 ∧
    (trainIndices 100 (9 / 10) ++ testIndices 100 (9 / 10) =
        List.range 100 ∧
      (∀ i, ¬(i ∈ trainIndices 100 (9 / 10) ∧ i ∈ testIndices 100 (9 / 10))) ∧
      (∀ i, i < 100 →
        (i ∈ trainIndices 100 (9 / 10) ∧ i ∉ testIndices 100 (9 / 10)) ∨
        (i ∉ trainIndices 100 (9 / 10) ∧ i ∈ testIndices 100 (9 / 10)))) :=
  ⟨by norm_num, by norm_num,
   c9_split_partition 100 (9 / 10) (by norm_num) (by norm_num)⟩

lemma unpack_pack_fold (n : Nat) (h : n < 2 ^ 64) :
    unpack_q [n / 256 ^ 7 % 256, n / 256 ^ 6 % 256, n / 256 ^ 5 % 256,
      n / 256 ^ 4 % 256, n / 256 ^ 3 % 256, n / 256 ^ 2 % 256,
      n / 256 % 256, n % 256] =
    if n < 2 ^ 63 then (n : Int) else (n : Int) - 2 ^ 64 := by
  have hfold : ([n / 256 ^ 7 % 256, n / 256 ^ 6 % 256, n / 256 ^ 5 % 256,
      n / 256 ^ 4 % 256, n / 256 ^ 3 % 256, n / 256 ^ 2 % 256,
      n / 256 % 256, n % 256].foldl (fun acc b => acc * 256 + b) 0) = n := by
    simp only [List.foldl]
    have e7 : (256 : Nat) ^ 7 = 72057594037927936 := by norm_num
    have e6 : (256 : Nat) ^ 6 = 281474976710656 := by norm_num
    have e5 : (256 : Nat) ^ 5 = 1099511627776 := by norm_num
    have e4 : (256 : Nat) ^ 4 = 4294967296 := by norm_num
    have e3 : (256 : Nat) ^ 3 = 16777216 := by norm_num
    have e2 : (256 : Nat) ^ 2 = 65536 := by norm_num
    have e64 : (2 : Nat) ^ 64 = 18446744073709551616 := by norm_num
    rw [e7, e6, e5, e4, e3, e2]
    rw [e64] at h
    omega
  simp only [unpack_q, hfold]

/-- C10: the sample-index serialization round-trips: packing any signed
64-bit integer as 8 big-endian bytes and decoding them with the dataset
decoder recovers the integer. -/
theorem c10_pack_unpack_roundtrip :
    ∀ i : Int, -(2 ^ 63) ≤ i → i < 2 ^ 63 → unpack_q (pack_q i) = i := by
  intro i h1 h2
  have hlt : i % (2 ^ 64 : Int) < 2 ^ 64 := Int.emod_lt_of_pos i (by norm_num)
  have hge : 0 ≤ i % (2 ^ 64 : Int) := Int.emod_nonneg i (by norm_num)
  have key := unpack_pack_fold ((i % (2 ^ 64 : Int)).toNat) (by omega)
  simp only [pack_q]
  rw [key]
  split_ifs with h63
  · omega
  · omega

/-- Witness for C10 at the representative index -123. -/
theorem c10_pack_unpack_roundtrip_witness :
    -(2 ^ 63) ≤ (-123 : Int) ∧ (-123 : Int) < 2 ^ 63 ∧
    unpack_q (pack_q (-123)) = -123 :=
  ⟨by decide, by decide,
   c10_pack_unpack_roundtrip (-123) (by decide) (by decide)⟩
